import Mathlib

/-!
Verification of the feature-extraction orchestration pipeline of the
`extract_features.py` source: directory-to-label resolution, deduplication,
sampling strategies, parallel dispatch, and the hierarchical feature archive.

Python strings are modelled as Lean `String`s compared by code points
(`Char.toNat`), matching CPython string comparison.  Numpy rounding is
modelled exactly (round half to even over exact rationals represented as
numerator/denominator pairs of naturals); numpy truth-value semantics of
boolean arrays (ambiguous for more than one element) are modelled by
`npTruth`.  Fallible code returns `Except`.
-/

open List

/-! ## Code-point lexicographic order on strings (CPython string comparison) -/

def charListLtB : List Char → List Char → Bool
  | [], [] => false
  | [], _ :: _ => true
  | _ :: _, [] => false
  | a :: as, b :: bs =>
    if a.toNat < b.toNat then true
    else if b.toNat < a.toNat then false
    else charListLtB as bs

def strLtB (a b : String) : Bool := charListLtB a.data b.data

def strLeB (a b : String) : Bool := strLtB a b || a == b

def strLt (a b : String) : Prop := strLtB a b = true

def strLe (a b : String) : Prop := strLeB a b = true

instance : DecidableRel strLt := fun a b =>
  inferInstanceAs (Decidable (strLtB a b = true))

instance : DecidableRel strLe := fun a b =>
  inferInstanceAs (Decidable (strLeB a b = true))

/-- Lexicographic comparison of `(directory, filename)` pairs, as CPython
compares 2-tuples of strings: first components first, ties broken by the
second components. -/
def pairLtB (a b : String × String) : Bool :=
  strLtB a.1 b.1 || (a.1 == b.1 && strLtB a.2 b.2)

def pairLeB (a b : String × String) : Bool :=
  strLtB a.1 b.1 || (a.1 == b.1 && strLeB a.2 b.2)

def pairLt (a b : String × String) : Prop := pairLtB a b = true

def pairLe (a b : String × String) : Prop := pairLeB a b = true

instance : DecidableRel pairLt := fun a b =>
  inferInstanceAs (Decidable (pairLtB a b = true))

instance : DecidableRel pairLe := fun a b =>
  inferInstanceAs (Decidable (pairLeB a b = true))

/-- Lowercasing of a Python string (`str.lower`), character by character. -/
def lowerStr (s : String) : String := String.mk (s.data.map Char.toLower)

/-! ## The uniform sampler (`_sample_uniform`), with exact numpy semantics -/

/-- Round half to even (numpy `np.round`) of the exact fraction
`num / den`, for `den > 0`. -/
def roundHalfEven (num den : ℕ) : ℕ :=
  let q := num / den
  let r := num % den
  if 2 * r < den then q
  else if den < 2 * r then q + 1
  else if q % 2 = 0 then q else q + 1

/-- Models `np.round(np.linspace(0, last, n))`: `n` evenly spaced values
from `0` to `last` inclusive, rounded half to even.  For `k < n` the exact
value is `k * last / (n - 1)`. -/
def npLinspaceRound (last : ℕ) (n : ℕ) : List ℕ :=
  match n with
  | 0 => []
  | 1 => [0]
  | Nat.succ m => (List.range (m + 1)).map (fun k => roundHalfEven (k * last) m)

/-- Models `np.diff`: differences of consecutive elements, as integers. -/
def npDiff (l : List ℕ) : List ℤ :=
  (l.zip l.tail).map (fun p => (p.2 : ℤ) - (p.1 : ℤ))

/-- Truth value of a numpy boolean array, as used by `assert arr`:
a single element yields that element, an empty array is falsy (numpy of the
source's era, with a deprecation warning), and an array of two or more
elements raises `ValueError` because its truth value is ambiguous. -/
def npTruth (bs : List Bool) : Except String Bool :=
  match bs with
  | [] => .ok false
  | [b] => .ok b
  | _ => .error "ValueError: truth value of an array with more than one element is ambiguous"

/-- Models `_sample_uniform(lst, n)`:
if `len(lst) <= n` return `lst`; otherwise compute
`indices = np.round(np.linspace(0, len(lst) - 1, n))`, run
`assert np.diff(indices) >= 1` (with numpy truth-value semantics), and
return `[lst[int(i)] for i in indices]`. -/
def sampleUniform {α : Type} (lst : List α) (n : ℕ) : Except String (List α) :=
  if lst.length ≤ n then .ok lst
  else
    let indices := npLinspaceRound (lst.length - 1) n
    match npTruth ((npDiff indices).map (fun d => decide (1 ≤ d))) with
    | .error e => .error e
    | .ok false => .error "AssertionError"
    | .ok true =>
      match indices.mapM (fun i => lst.get? i) with
      | some picked => .ok picked
      | none => .error "IndexError"

/-! ## Sampler table and its selection (`SAMPLERS`, line 150) -/

/-- Models Python `sorted` on a label's list of `(dirname, fname)` pairs:
a stable sort by lexicographic tuple comparison. -/
def sortedImages (images : List (String × String)) : List (String × String) :=
  List.insertionSort pairLe images

/-- Models `SAMPLERS['first'] = lambda lst, n: lst[:n]`. -/
def sampleFirst (lst : List (String × String)) (n : ℕ) : List (String × String) :=
  lst.take n

/-- Models one label's pass through line 154: `sample(sorted(images), n)`
with the `first` sampler. -/
def firstStage (images : List (String × String)) (n : ℕ) : List (String × String) :=
  sampleFirst (sortedImages images) n

/-- Stable sort of a list of filenames by code-point order. -/
def sortStrings (l : List String) : List String :=
  List.insertionSort strLe l

/-- The sampling behaviour selected at line 150 of the source. -/
inductive SamplerChoice where
  | all
  | first
  | random
  | uniform
deriving DecidableEq

/-- Models line 150:
`sample = (lambda x, n: x) if img_per_cla is None else SAMPLERS[sampler]`.
When no per-class cap is given the identity sampler is used and the
`sampler` string is never looked up; otherwise an unknown name raises
`KeyError`. -/
def selectSampler (imgPerCla : Option ℕ) (sampler : String) : Except String SamplerChoice :=
  match imgPerCla with
  | none => .ok .all
  | some _ =>
    if sampler = "first" then .ok .first
    else if sampler = "random" then .ok .random
    else if sampler = "uniform" then .ok .uniform
    else .error ("KeyError: " ++ sampler)

/-! ## Parallel dispatch (lines 157 to 174) -/

/-- The four forms of the `parallel` argument of `extract_features`:
an external object with a `map` method, `False` (serial `strict_map`),
`True` (internal pool with one process per core), or an integer worker
count (internal pool of that size). -/
inductive ParallelArg where
  | externalPool
  | off
  | allCores
  | procs (n : ℕ)
deriving DecidableEq

/-- Models `strict_map`: plain in-order application. -/
def strictMap {α β : Type} (f : α → β) (xs : List α) : List β := xs.map f

/-- Models an ordered pool `map`: the scheduling order `sched` in which
workers pick up the items is unconstrained, each worker computes
`(i, f (xs[i]))`, and the pool reassembles the results by input index. -/
def poolGather {α β : Type} (f : α → β) (xs : List α) (sched : List ℕ) :
    Option (List β) :=
  let results := sched.filterMap (fun i => (xs.get? i).map (fun a => (i, f a)))
  (List.range xs.length).mapM (fun j => results.lookup j)

/-- Models the `do_map` selected at lines 158 to 166: serial `strict_map`
for `parallel=False`, a pool `map` in the three pooled forms. -/
def doMap {α β : Type} (par : ParallelArg) (sched : List ℕ) (f : α → β)
    (xs : List α) : Option (List β) :=
  match par with
  | .off => some (strictMap f xs)
  | .externalPool => poolGather f xs sched
  | .allCores => poolGather f xs sched
  | .procs _ => poolGather f xs sched

/-- Models `frames, descrs = zip(*results)` at line 173: transposition of a
list of pairs, raising `ValueError` on an empty argument list. -/
def zipStar {γ δ : Type} (l : List (γ × δ)) : Except String (List γ × List δ) :=
  match l with
  | [] => .error "ValueError: need more than 0 values to unpack"
  | _ => .ok (l.map Prod.fst, l.map Prod.snd)

/-- Dispatch and reassembly of per-path feature extraction, lines 157 to
174: apply `do_map` with per-path computation `f` (standing for the frozen
`_load_features` closure), then unpack the results. -/
def extractDispatch {α γ δ : Type} (par : ParallelArg) (sched : List ℕ)
    (f : α → γ × δ) (paths : List α) : Except String (List γ × List δ) :=
  match doMap par sched f paths with
  | none => .error "pool failure"
  | some rs => zipStar rs

/-! ## Pool lifecycle events (resource discipline of lines 157 to 174) -/

/-- Operations `extract_features` can perform on a worker pool. -/
inductive PoolEvent where
  | create (size : Option ℕ)
  | mapCall
  | close
  | join
  | terminate
deriving DecidableEq

/-- The pool operations `extract_features` performs for each form of the
`parallel` argument, in program order: an external pool only has its `map`
called; `parallel=False` touches no pool; the two internal forms construct
`mp.Pool` and call its `map`.  The source contains no `close`, `join` or
`terminate` call and no `try/finally` around the dispatch. -/
def dispatchPoolEvents (par : ParallelArg) : List PoolEvent :=
  match par with
  | .externalPool => [.mapCall]
  | .off => []
  | .allCores => [.create none, .mapCall]
  | .procs n => [.create (some n), .mapCall]

/-! ## Directory-to-label resolution (lines 134 to 147) -/

/-- Errors that resolution can raise: `IndexError` from
`fname.rsplit('.', 1)[1]` on a filename without a dot, and the
`ValueError("more than one {fname} with label {label}")` duplicate-image
error. -/
inductive ResolveError where
  | indexError
  | dupImage (fname label : String)
deriving DecidableEq

/-- The characters after the last dot of the list. -/
def afterLastDot (l : List Char) : List Char :=
  (l.reverse.takeWhile (fun c => c != '.')).reverse

/-- Models `fname.rsplit('.', 1)[1]`: the extension after the last dot,
raising `IndexError` when the filename contains no dot (the split then has
a single part and index 1 is out of range). -/
def rsplitExt (fname : String) : Except ResolveError String :=
  if fname.data.contains '.' then .ok (String.mk (afterLastDot fname.data))
  else .error .indexError

/-- Whether a filename qualifies as an image: its lowercased extension is
in the allowed extension list.  A filename without a dot does not qualify
(the source raises instead of reaching the membership test; this predicate
only describes the file lists the resolver keeps). -/
def isImageFile (exts : List String) (fname : String) : Bool :=
  match rsplitExt fname with
  | .ok e => exts.contains (lowerStr e)
  | .error _ => false

/-- State of the resolution loop: `seen` models the
`seen_names : label -> set of fname` structure as the list of
`(label, fname)` pairs added so far, `ims` models the
`ims_by_label : label -> list of (dirname, fname)` insertion-ordered
mapping. -/
structure ResolveState where
  seen : List (String × String)
  ims : List (String × List (String × String))
deriving DecidableEq

def initState : ResolveState := ⟨[], []⟩

/-- Appends `(dirname, fname)` to the list of images of `label`, creating
the label entry at the end on first use (`defaultdict(list)` plus
`.append`). -/
def addIm : List (String × List (String × String)) → String → String × String →
    List (String × List (String × String))
  | [], label, p => [(label, [p])]
  | (l, ps) :: rest, label, p =>
    if l = label then (l, ps ++ [p]) :: rest
    else (l, ps) :: addIm rest label p

/-- Processing of one directory entry, lines 142 to 147: split off the
extension (possibly raising `IndexError`), skip non-image extensions,
raise the duplicate-image error when `(label, fname)` was already seen,
and otherwise record the file. -/
def resolveFile (exts : List String) (dirname label : String)
    (st : ResolveState) (fname : String) : Except ResolveError ResolveState := do
  let ext ← rsplitExt fname
  if exts.contains (lowerStr ext) then
    if (label, fname) ∈ st.seen then .error (.dupImage fname label)
    else .ok ⟨(label, fname) :: st.seen, addIm st.ims label (dirname, fname)⟩
  else .ok st

/-- Processing of one `(dirname, label)` pair: fold `resolveFile` over the
directory listing (`for fname in os.listdir(dirname)`). -/
def resolveDir (exts : List String) (listing : String → List String)
    (st : ResolveState) (p : String × String) : Except ResolveError ResolveState :=
  (listing p.1).foldlM (resolveFile exts p.1 p.2) st

/-- The resolution loop of lines 138 to 147: fold over the
`(dirname, label)` pairs and return the label-to-images mapping.
`listing` models `os.listdir`. -/
def resolveImages (exts : List String) (listing : String → List String)
    (dirs : List (String × String)) :
    Except ResolveError (List (String × List (String × String))) :=
  (dirs.foldlM (resolveDir exts listing) initState).map ResolveState.ims

/-- All directory entries of all listed directories, tagged with their
directory and label, in traversal order. -/
def filesOf (listing : String → List String) (dirs : List (String × String)) :
    List (String × String × String) :=
  dirs.flatMap (fun p => (listing p.1).map (fun f => (p.1, p.2, f)))

/-- The qualifying `(label, dirname, fname)` triples of one
`(dirname, label)` pair. -/
def qualFiles (exts : List String) (listing : String → List String)
    (p : String × String) : List (String × String × String) :=
  ((listing p.1).filter (isImageFile exts)).map (fun f => (p.2, p.1, f))

/-- All qualifying `(label, dirname, fname)` triples of a directory
specification, in traversal order. -/
def qualTriples (exts : List String) (listing : String → List String)
    (dirs : List (String × String)) : List (String × String × String) :=
  dirs.flatMap (qualFiles exts listing)

/-- The `(label, fname)` identity keys of a triple list. -/
def tripPairs (ts : List (String × String × String)) : List (String × String) :=
  ts.map (fun t => (t.1, t.2.2))

/-- Flattens the label-to-images mapping into `(label, dirname, fname)`
triples. -/
def imsTriples (ims : List (String × List (String × String))) :
    List (String × String × String) :=
  ims.flatMap (fun g => g.2.map (fun p => (g.1, p.1, p.2)))

/-- One step of the resolution loop on the flattened stream of
`(dirname, label, fname)` entries; the nested loops of lines 140 to 147
traverse exactly this stream. -/
def resolveFileStep (exts : List String) (st : ResolveState)
    (t : String × String × String) : Except ResolveError ResolveState :=
  resolveFile exts t.1 t.2.1 st t.2.2

/-- The qualifying entries of a flattened `(dirname, label, fname)`
stream. -/
def flatQualFiles (exts : List String) (ts : List (String × String × String)) :
    List (String × String × String) :=
  ts.filter (fun t => isImageFile exts t.2.2)

/-- The `(label, dirname, fname)` output triples of the qualifying entries
of a flattened stream. -/
def flatQualTriples (exts : List String) (ts : List (String × String × String)) :
    List (String × String × String) :=
  (flatQualFiles exts ts).map (fun t => (t.2.1, t.1, t.2.2))

/-- The `(label, fname)` identity keys of the qualifying entries of a
flattened stream. -/
def flatQualPairs (exts : List String) (ts : List (String × String × String)) :
    List (String × String) :=
  (flatQualFiles exts ts).map (fun t => (t.2.1, t.2.2))

/-- Models line 135, `dirs = dict((dirname, dirname) for dirname in dirs)`:
a plain iterable of directory names becomes a mapping from each directory
to itself as label, duplicate names collapsing into one key
(first-occurrence order). -/
def normalizeDirs (ds : List String) : List (String × String) :=
  (ds.foldl (fun acc d => if d ∈ acc then acc else acc ++ [d]) []).map (fun d => (d, d))

/-! ## The feature archive (`save_features`, `read_features`) -/

/-- One record of a `Features` archive: the four parallel sequences
`labels`, `names`, `frames`, `features` zipped together, payload arrays
modelled as integer lists. -/
structure FeatRecord where
  label : String
  name : String
  frames : List ℤ
  features : List ℤ
deriving DecidableEq

/-- The identity key of a record. -/
def featKey (r : FeatRecord) : String × String := (r.label, r.name)

/-- A hierarchical archive file: label groups, each holding name groups,
each leaf holding the `frames` and `features` arrays. -/
def HFile : Type := List (String × List (String × (List ℤ × List ℤ)))

/-- Models one iteration of the `save_features` loop:
`g = f.require_group(label).create_group(name)` followed by storing the
two arrays.  `require_group` finds or appends the label group;
`create_group` fails when a group of that name already exists. -/
def insertRecord : HFile → FeatRecord → Except String HFile
  | [], r => .ok [(r.label, [(r.name, (r.frames, r.features))])]
  | (l, grp) :: rest, r =>
    if l = r.label then
      if (grp.map Prod.fst).contains r.name then
        .error "ValueError: unable to create group, name already exists"
      else .ok ((l, grp ++ [(r.name, (r.frames, r.features))]) :: rest)
    else (insertRecord rest r).map (fun rest' => (l, grp) :: rest')

def initHFile : HFile := []

/-- Models `save_features` on a fresh file: write every record in archive
order into the two-level hierarchy. -/
def saveFeatures (recs : List FeatRecord) : Except String HFile :=
  recs.foldlM insertRecord initHFile

/-- Sorted traversal of an association list by its string keys, as `h5py`
iterates group members in name order. -/
def sortAssoc {β : Type} (l : List (String × β)) : List (String × β) :=
  List.insertionSort (fun a b => strLe a.1 b.1) l

/-- Optional dtype coercion of a descriptor array on read
(`np.asarray(..., dtype=features_dtype)`), applied element-wise. -/
def applyDtype (g : Option (ℤ → ℤ)) (feats : List ℤ) : List ℤ :=
  match g with
  | none => feats
  | some g => feats.map g

/-- Models `read_features`: traverse the two nesting levels in the
container's name-sorted iteration order, appending one record per leaf,
optionally coercing the descriptor arrays. -/
def readFeatures (c : HFile) (g : Option (ℤ → ℤ)) : List FeatRecord :=
  (sortAssoc c).flatMap (fun lg =>
    (sortAssoc lg.2).map (fun ng => ⟨lg.1, ng.1, ng.2.1, applyDtype g ng.2.2⟩))

/-- The records stored in an archive file, in storage order. -/
def fileRecords (c : HFile) : List FeatRecord :=
  c.flatMap (fun lg => lg.2.map (fun ng => ⟨lg.1, ng.1, ng.2.1, ng.2.2⟩))

/-- The `(label, name)` keys stored in an archive file, in storage
order. -/
def fileKeys (c : HFile) : List (String × String) :=
  (fileRecords c).map featKey

/-- Element-wise dtype coercion of one record's descriptor array. -/
def coerceRec (g : ℤ → ℤ) (r : FeatRecord) : FeatRecord :=
  ⟨r.label, r.name, r.frames, r.features.map g⟩

/-- Comparison of records by their `(label, name)` key. -/
def recLe (a b : FeatRecord) : Prop := pairLe (featKey a) (featKey b)

def recLt (a b : FeatRecord) : Prop := pairLt (featKey a) (featKey b)

instance : DecidableRel recLe := fun a b =>
  inferInstanceAs (Decidable (pairLeB (featKey a) (featKey b) = true))

instance : DecidableRel recLt := fun a b =>
  inferInstanceAs (Decidable (pairLtB (featKey a) (featKey b) = true))

/-- Stable sort of an archive's records by `(label, name)`. -/
def sortRecords (l : List FeatRecord) : List FeatRecord :=
  List.insertionSort recLe l

/-- Whether an `Except` computation succeeded. -/
def okB {ε α : Type} : Except ε α → Bool
  | .ok _ => true
  | .error _ => false

/-! ## Order theory for the code-point comparisons -/

theorem char_eq_of_toNat_eq {x y : Char} (h : x.toNat = y.toNat) : x = y := by
  rw [← Char.ofNat_toNat x, h, Char.ofNat_toNat]

theorem charListLtB_cons {a b : Char} {as bs : List Char} :
    charListLtB (a :: as) (b :: bs) = true ↔
      (a.toNat < b.toNat ∨ (a.toNat = b.toNat ∧ charListLtB as bs = true)) := by
  simp only [charListLtB]
  split_ifs with h1 h2
  · simp; omega
  · simp; omega
  · constructor
    · intro h
      exact Or.inr ⟨by omega, h⟩
    · rintro (h | ⟨_, h⟩)
      · exact absurd h h1
      · exact h

theorem charListLtB_irrefl : ∀ l : List Char, charListLtB l l = false
  | [] => rfl
  | a :: as => by
    simp only [charListLtB, Nat.lt_irrefl, if_false]
    exact charListLtB_irrefl as

theorem charListLtB_trans : ∀ (a b c : List Char),
    charListLtB a b = true → charListLtB b c = true → charListLtB a c = true := by
  intro a
  induction a with
  | nil =>
    intro b c h1 h2
    cases b with
    | nil => exact absurd h1 (by simp [charListLtB])
    | cons y ys =>
      cases c with
      | nil => exact absurd h2 (by simp [charListLtB])
      | cons z zs => simp [charListLtB]
  | cons x xs ih =>
    intro b c h1 h2
    cases b with
    | nil => exact absurd h1 (by simp [charListLtB])
    | cons y ys =>
      cases c with
      | nil => exact absurd h2 (by simp [charListLtB])
      | cons z zs =>
        rw [charListLtB_cons] at h1 h2 ⊢
        rcases h1 with h1 | ⟨e1, r1⟩ <;> rcases h2 with h2 | ⟨e2, r2⟩
        · exact Or.inl (by omega)
        · exact Or.inl (by omega)
        · exact Or.inl (by omega)
        · exact Or.inr ⟨by omega, ih ys zs r1 r2⟩

theorem charListLtB_total : ∀ (a b : List Char),
    charListLtB a b = true ∨ a = b ∨ charListLtB b a = true := by
  intro a
  induction a with
  | nil =>
    intro b
    cases b with
    | nil => exact Or.inr (Or.inl rfl)
    | cons y ys => exact Or.inl (by simp [charListLtB])
  | cons x xs ih =>
    intro b
    cases b with
    | nil => exact Or.inr (Or.inr (by simp [charListLtB]))
    | cons y ys =>
      rcases Nat.lt_trichotomy x.toNat y.toNat with h | h | h
      · exact Or.inl (charListLtB_cons.mpr (Or.inl h))
      · rcases ih ys with h' | h' | h'
        · exact Or.inl (charListLtB_cons.mpr (Or.inr ⟨h, h'⟩))
        · exact Or.inr (Or.inl (by rw [char_eq_of_toNat_eq h, h']))
        · exact Or.inr (Or.inr (charListLtB_cons.mpr (Or.inr ⟨h.symm, h'⟩)))
      · exact Or.inr (Or.inr (charListLtB_cons.mpr (Or.inl h)))

theorem charListLtB_asymm {a b : List Char} (h1 : charListLtB a b = true)
    (h2 : charListLtB b a = true) : False := by
  have := charListLtB_trans a b a h1 h2
  rw [charListLtB_irrefl] at this
  exact Bool.false_ne_true this

theorem str_eq_of_data_eq {a b : String} (h : a.data = b.data) : a = b := by
  cases a
  cases b
  exact congrArg String.mk h

theorem strLtB_trans {a b c : String} (h1 : strLtB a b = true)
    (h2 : strLtB b c = true) : strLtB a c = true :=
  charListLtB_trans a.data b.data c.data h1 h2

theorem strLtB_asymm {a b : String} (h1 : strLtB a b = true)
    (h2 : strLtB b a = true) : False :=
  charListLtB_asymm h1 h2

theorem strLtB_irrefl (a : String) : strLtB a a = false :=
  charListLtB_irrefl a.data

theorem strLtB_total (a b : String) :
    strLtB a b = true ∨ a = b ∨ strLtB b a = true := by
  rcases charListLtB_total a.data b.data with h | h | h
  · exact Or.inl h
  · exact Or.inr (Or.inl (str_eq_of_data_eq h))
  · exact Or.inr (Or.inr h)

theorem strLeB_iff {a b : String} :
    strLeB a b = true ↔ (strLtB a b = true ∨ a = b) := by
  simp [strLeB, beq_iff_eq]

theorem strLe_refl (a : String) : strLe a a :=
  strLeB_iff.mpr (Or.inr rfl)

theorem strLe_trans {a b c : String} (h1 : strLe a b) (h2 : strLe b c) :
    strLe a c := by
  rcases strLeB_iff.mp h1 with h1 | rfl
  · rcases strLeB_iff.mp h2 with h2 | rfl
    · exact strLeB_iff.mpr (Or.inl (strLtB_trans h1 h2))
    · exact strLeB_iff.mpr (Or.inl h1)
  · exact h2

theorem strLe_total (a b : String) : strLe a b ∨ strLe b a := by
  rcases strLtB_total a b with h | rfl | h
  · exact Or.inl (strLeB_iff.mpr (Or.inl h))
  · exact Or.inl (strLe_refl a)
  · exact Or.inr (strLeB_iff.mpr (Or.inl h))

theorem strLe_antisymm {a b : String} (h1 : strLe a b) (h2 : strLe b a) :
    a = b := by
  rcases strLeB_iff.mp h1 with h1 | rfl
  · rcases strLeB_iff.mp h2 with h2 | rfl
    · exact absurd h2 (fun h2 => strLtB_asymm h1 h2)
    · rfl
  · rfl

theorem strLt_of_strLe_of_ne {a b : String} (h1 : strLe a b) (h2 : a ≠ b) :
    strLt a b := by
  rcases strLeB_iff.mp h1 with h1 | rfl
  · exact h1
  · exact absurd rfl h2

instance : IsTotal String strLe := ⟨strLe_total⟩

instance : IsTrans String strLe := ⟨fun _ _ _ => strLe_trans⟩

instance : IsAntisymm String strLe := ⟨fun _ _ => strLe_antisymm⟩

theorem pairLeB_iff {a b : String × String} :
    pairLeB a b = true ↔
      (strLtB a.1 b.1 = true ∨ (a.1 = b.1 ∧ strLe a.2 b.2)) := by
  simp [pairLeB, beq_iff_eq, strLe]

theorem pairLtB_iff {a b : String × String} :
    pairLtB a b = true ↔
      (strLtB a.1 b.1 = true ∨ (a.1 = b.1 ∧ strLtB a.2 b.2 = true)) := by
  simp [pairLtB, beq_iff_eq]

theorem pairLe_refl (a : String × String) : pairLe a a :=
  pairLeB_iff.mpr (Or.inr ⟨rfl, strLe_refl a.2⟩)

theorem pairLe_trans {a b c : String × String} (h1 : pairLe a b)
    (h2 : pairLe b c) : pairLe a c := by
  rcases pairLeB_iff.mp h1 with h1 | ⟨e1, l1⟩ <;>
    rcases pairLeB_iff.mp h2 with h2 | ⟨e2, l2⟩
  · exact pairLeB_iff.mpr (Or.inl (strLtB_trans h1 h2))
  · exact pairLeB_iff.mpr (Or.inl (e2 ▸ h1))
  · exact pairLeB_iff.mpr (Or.inl (e1 ▸ h2))
  · exact pairLeB_iff.mpr (Or.inr ⟨e1.trans e2, strLe_trans l1 l2⟩)

theorem pairLe_total (a b : String × String) : pairLe a b ∨ pairLe b a := by
  rcases strLtB_total a.1 b.1 with h | h | h
  · exact Or.inl (pairLeB_iff.mpr (Or.inl h))
  · rcases strLe_total a.2 b.2 with h' | h'
    · exact Or.inl (pairLeB_iff.mpr (Or.inr ⟨h, h'⟩))
    · exact Or.inr (pairLeB_iff.mpr (Or.inr ⟨h.symm, h'⟩))
  · exact Or.inr (pairLeB_iff.mpr (Or.inl h))

theorem pairLe_antisymm {a b : String × String} (h1 : pairLe a b)
    (h2 : pairLe b a) : a = b := by
  rcases pairLeB_iff.mp h1 with h1 | ⟨e1, l1⟩ <;>
    rcases pairLeB_iff.mp h2 with h2 | ⟨e2, l2⟩
  · exact absurd h2 (fun h2 => strLtB_asymm h1 h2)
  · exact absurd h1 (by rw [e2, strLtB_irrefl]; simp)
  · exact absurd h2 (by rw [e1, strLtB_irrefl]; simp)
  · have : a.2 = b.2 := strLe_antisymm l1 l2
    exact Prod.ext e1 this

theorem pairLt_of_pairLe_of_ne {a b : String × String} (h1 : pairLe a b)
    (h2 : a ≠ b) : pairLt a b := by
  rcases pairLeB_iff.mp h1 with h1 | ⟨e1, l1⟩
  · exact pairLtB_iff.mpr (Or.inl h1)
  · have : a.2 ≠ b.2 := by
      intro e2
      exact h2 (Prod.ext e1 e2)
    exact pairLtB_iff.mpr (Or.inr ⟨e1, strLt_of_strLe_of_ne l1 this⟩)

theorem pairLt_asymm {a b : String × String} (h1 : pairLt a b)
    (h2 : pairLt b a) : False := by
  rcases pairLtB_iff.mp h1 with h1 | ⟨e1, l1⟩ <;>
    rcases pairLtB_iff.mp h2 with h2 | ⟨e2, l2⟩
  · exact strLtB_asymm h1 h2
  · exact strLtB_asymm h1 (e2 ▸ h1)
  · exact strLtB_asymm h2 (e1 ▸ h2)
  · exact strLtB_asymm l1 l2

instance : IsTotal (String × String) pairLe := ⟨pairLe_total⟩

instance : IsTrans (String × String) pairLe := ⟨fun _ _ _ => pairLe_trans⟩

instance : IsAntisymm (String × String) pairLe := ⟨fun _ _ => pairLe_antisymm⟩

instance : IsTotal FeatRecord recLe := ⟨fun a b => pairLe_total (featKey a) (featKey b)⟩

instance : IsTrans FeatRecord recLe := ⟨fun _ _ _ => pairLe_trans⟩

instance : IsAntisymm FeatRecord recLt :=
  ⟨fun _ _ h1 h2 => absurd (pairLt_asymm h1 h2) not_false⟩

/-! ## Claim C3: the uniform sampler -/

/-- Claim C3: the claim says that for `N <= len(list)` the uniform sampler
returns exactly `N` items, erroring only when the index spacing is not
strictly increasing.  The code instead always raises
`ValueError` for `3 <= N < len(list)`: `assert np.diff(indices) >= 1`
evaluates the truth value of a boolean array with `N - 1 >= 2` elements,
which numpy rejects as ambiguous even though the spacing here
(`indices = [0, 2, 4]`) is strictly increasing.  Evaluation of the model
at the failing input `lst = range(5)`, `n = 3`. -/
theorem uniform_sampler_assert_ambiguous :
    sampleUniform (List.range 5) 3 =
      .error "ValueError: truth value of an array with more than one element is ambiguous" := rfl

/-! ## Claim C7: unknown sampler names -/

/-- Claim C7 counterexample: with no per-class cap (`img_per_cla = None`)
an unknown sampler name is silently ignored — line 150 never looks the
name up — so the call does not fail, contradicting the claim that an
unknown sampler name always fails regardless of the cap. -/
theorem unknown_sampler_ignored_without_cap :
    selectSampler none "bogus" = .ok .all := rfl

/-- Claim C7 amended: the sampler-selection step fails (with `KeyError`)
exactly when a per-class image cap is set and the sampler name is not one
of `first`, `random`, `uniform`; with no cap the name is never looked up
and cannot fail. -/
theorem unknown_sampler_error_iff_cap_set (imgPerCla : Option ℕ) (sampler : String) :
    okB (selectSampler imgPerCla sampler) = false ↔
      (imgPerCla ≠ none ∧ sampler ≠ "first" ∧ sampler ≠ "random" ∧ sampler ≠ "uniform") := by
  cases imgPerCla with
  | none => simp [selectSampler, okB]
  | some k =>
    simp only [selectSampler]
    split_ifs with h1 h2 h3 <;> simp_all [okB]

/-! ## Claim C9: pool teardown -/

/-- Claim C9 counterexample: for an internally created pool of size 4,
the dispatch trace contains the pool construction and the `map` call but
no release operation at all — the claim that the pool is torn down when
dispatch completes is false. -/
theorem internal_pool_not_torn_down :
    PoolEvent.create (some 4) ∈ dispatchPoolEvents (.procs 4) ∧
      ¬ (PoolEvent.close ∈ dispatchPoolEvents (.procs 4) ∨
         PoolEvent.join ∈ dispatchPoolEvents (.procs 4) ∨
         PoolEvent.terminate ∈ dispatchPoolEvents (.procs 4)) := by
  decide

/-- Claim C9 amended: `extract_features` never explicitly releases a
worker pool under any parallelism directive: its dispatch performs no
`close`, `join` or `terminate` on the pool (there is no teardown code and
no `try/finally`), leaving release to interpreter finalization. -/
theorem dispatch_no_pool_release (par : ParallelArg) :
    PoolEvent.close ∉ dispatchPoolEvents par ∧
      PoolEvent.join ∉ dispatchPoolEvents par ∧
      PoolEvent.terminate ∉ dispatchPoolEvents par := by
  cases par <;> simp [dispatchPoolEvents]

/-! ## Claim C6: the `first` sampler -/

/-- Claim C6 counterexample: the `first` sampler sorts the label's list of
`(dirname, fname)` pairs by the pair order, not by filename.  With images
`("b", "a.jpg")` and `("a", "z.jpg")` under one label and cap 1, it
returns `z.jpg` (the file of the lexicographically smallest directory),
not the lexicographically smallest filename `a.jpg`. -/
theorem first_sampler_not_filename_sorted :
    (firstStage [("b", "a.jpg"), ("a", "z.jpg")] 1).map Prod.snd ≠
      (sortStrings ["a.jpg", "z.jpg"]).take 1 := by
  decide

theorem sortedImages_map_snd_of_const_dir {images : List (String × String)}
    {d : String} (hd : ∀ p ∈ images, p.1 = d) :
    (sortedImages images).map Prod.snd = sortStrings (images.map Prod.snd) := by
  apply List.eq_of_perm_of_sorted (r := strLe)
  · exact ((List.perm_insertionSort pairLe images).map Prod.snd).trans
      (List.perm_insertionSort strLe (images.map Prod.snd)).symm
  · have hsort : List.Sorted pairLe (sortedImages images) :=
      List.sorted_insertionSort pairLe images
    have hmem : ∀ p ∈ sortedImages images, p.1 = d := fun p hp =>
      hd p ((List.perm_insertionSort pairLe images).subset hp)
    rw [List.Sorted, List.pairwise_map]
    refine hsort.imp_of_mem ?_
    intro a b ha hb hab
    rcases pairLeB_iff.mp hab with h | ⟨_, h⟩
    · rw [hmem a ha, hmem b hb, strLtB_irrefl] at h
      exact absurd h (by simp)
    · exact h
  · exact List.sorted_insertionSort strLe (images.map Prod.snd)

/-- Claim C6 amended: the `first` sampler sorts the label's list of
`(directory, filename)` pairs lexicographically as tuples (directory
first, filename second) and returns the first `N`; when all of the
label's images live in a single directory this yields the `N`
lexicographically smallest filenames. -/
theorem first_sampler_pair_order (images : List (String × String)) (n : ℕ)
    (d : String) (hd : ∀ p ∈ images, p.1 = d) :
    firstStage images n = (List.insertionSort pairLe images).take n ∧
      (firstStage images n).map Prod.snd = (sortStrings (images.map Prod.snd)).take n := by
  constructor
  · rfl
  · rw [firstStage, sampleFirst, List.map_take, sortedImages_map_snd_of_const_dir hd]

/-- Claim C6 amended, witness: a label whose three images live in one
directory, cap 2, yields the two lexicographically smallest filenames. -/
theorem first_sampler_pair_order_witness :
    (firstStage [("d", "b.jpg"), ("d", "a.jpg"), ("d", "c.jpg")] 2).map Prod.snd =
      (sortStrings ["b.jpg", "a.jpg", "c.jpg"]).take 2 :=
  (first_sampler_pair_order [("d", "b.jpg"), ("d", "a.jpg"), ("d", "c.jpg")] 2 "d"
    (by decide)).2

/-! ## Claim C1: index alignment of dispatch -/

theorem mapM_congr_mem {γ δ : Type} {l : List γ} {f g : γ → Option δ}
    (h : ∀ x ∈ l, f x = g x) : l.mapM f = l.mapM g := by
  induction l with
  | nil => rfl
  | cons x xs ih =>
    rw [List.mapM_cons, List.mapM_cons, h x (List.mem_cons_self x xs),
      ih (fun y hy => h y (List.mem_cons_of_mem x hy))]

theorem mapM_comp_map {γ δ ε : Type} (g : γ → Option δ) (h : ε → γ) :
    ∀ l : List ε, (l.map h).mapM g = l.mapM (fun x => g (h x))
  | [] => rfl
  | x :: xs => by
    rw [List.map_cons, List.mapM_cons, List.mapM_cons, mapM_comp_map g h xs]

theorem mapM_get?_range {α β : Type} (f : α → β) :
    ∀ xs : List α,
      (List.range xs.length).mapM (fun j => (xs.get? j).map f) = some (xs.map f) := by
  intro xs
  induction xs with
  | nil => rfl
  | cons x xs ih =>
    rw [List.length_cons, List.range_succ_eq_map, List.mapM_cons, mapM_comp_map]
    simp only [List.get?_cons_succ, List.get?_cons_zero, Option.map_some]
    rw [ih]
    rfl

theorem lookup_gathered {α β : Type} (f : α → β) (xs : List α) :
    ∀ (sched : List ℕ) (j : ℕ), j ∈ sched → j < xs.length →
      (sched.filterMap (fun i => (xs.get? i).map (fun a => (i, f a)))).lookup j =
        (xs.get? j).map f := by
  intro sched
  induction sched with
  | nil => intro j hj; exact absurd hj (List.not_mem_nil j)
  | cons i rest ih =>
    intro j hj hlt
    rw [List.filterMap_cons]
    rcases eq_or_ne j i with rfl | hne
    · cases hxi : xs.get? j with
      | none =>
        exact absurd (List.get?_eq_none.mp hxi) (by omega)
      | some a =>
        simp [List.lookup]
    · have hjr : j ∈ rest := (List.mem_cons.mp hj).resolve_left hne
      cases hxi : xs.get? i with
      | none =>
        exact ih j hjr hlt
      | some a =>
        simp only [Option.map_some, List.lookup]
        rw [beq_eq_false_iff_ne.mpr hne]
        exact ih j hjr hlt

theorem poolGather_eq_map {α β : Type} (f : α → β) (xs : List α) (sched : List ℕ)
    (hs : sched ~ List.range xs.length) :
    poolGather f xs sched = some (xs.map f) := by
  unfold poolGather
  rw [mapM_congr_mem (g := fun j => (xs.get? j).map f)]
  · exact mapM_get?_range f xs
  · intro j hj
    have hmem : j ∈ sched := hs.mem_iff.mpr hj
    have hlt : j < xs.length := List.mem_range.mp hj
    exact lookup_gathered f xs sched j hmem hlt

/-- Claim C1: for every input path list, every dispatch mode (serial
`strict_map`, an external pool's ordered `map`, an internal pool of any
size created for `True` or an integer count), and every scheduling order
of the pooled workers, the dispatched result sequence is index-aligned
with the input: `do_map` returns exactly the in-order map of the
single-path computation `f` (standing for `_load_features`) over `paths`,
the unpacked `(frames, descrs)` pair is its componentwise transpose, and
`result[i] = f (paths[i])` at every index.  The empty path list never
reaches dispatch: line 151 of the source raises before it. -/
theorem extract_features_index_aligned {α γ δ : Type} (f : α → γ × δ)
    (paths : List α) (par : ParallelArg) (sched : List ℕ)
    (hs : sched ~ List.range paths.length) (hne : paths ≠ []) :
    doMap par sched f paths = some (paths.map f) ∧
      extractDispatch par sched f paths =
        .ok ((paths.map f).map Prod.fst, (paths.map f).map Prod.snd) ∧
      ∀ i : Fin paths.length,
        (paths.map f).get (Fin.cast (paths.length_map f).symm i) = f (paths.get i) := by
  have hdo : doMap par sched f paths = some (paths.map f) := by
    cases par with
    | off => rfl
    | externalPool => exact poolGather_eq_map f paths sched hs
    | allCores => exact poolGather_eq_map f paths sched hs
    | procs n => exact poolGather_eq_map f paths sched hs
  refine ⟨hdo, ?_, ?_⟩
  · rw [extractDispatch, hdo]
    cases paths with
    | nil => exact absurd rfl hne
    | cons p ps => rfl
  · intro i
    simp [List.get_eq_getElem, List.getElem_map]

/-- Claim C1 witness: three paths dispatched to an internal pool of four
workers that completes them out of order (schedule 2, 0, 1) still yield
the in-order sequential results. -/
theorem extract_features_index_aligned_witness :
    extractDispatch (.procs 4) [2, 0, 1] (fun n : ℕ => (n + 1, n * 2)) [3, 5, 7] =
      .ok ([4, 6, 8], [6, 10, 14]) := by
  have h := (extract_features_index_aligned (fun n : ℕ => (n + 1, n * 2)) [3, 5, 7]
    (.procs 4) [2, 0, 1] (by decide) (by decide)).2.1
  simpa using h

/-! ## Archive write and read lemmas -/

theorem okB_map {ε α β : Type} (f : α → β) (e : Except ε α) :
    okB (e.map f) = okB e := by
  cases e <;> rfl

theorem okB_true_iff {ε α : Type} (e : Except ε α) :
    okB e = true ↔ ∃ x, e = .ok x := by
  cases e <;> simp [okB]

theorem append_singleton_mid_perm {γ : Type} (A B : List γ) (x : γ) :
    A ++ ([x] ++ B) ~ (A ++ B) ++ [x] := by
  show A ++ (x :: B) ~ (A ++ B) ++ [x]
  have h2 : A ++ (x :: B) ~ A ++ (B ++ [x]) :=
    (List.perm_append_singleton x B).symm.append_left A
  rw [← List.append_assoc] at h2
  exact h2

theorem fileRecords_cons (l : String) (grp : List (String × (List ℤ × List ℤ)))
    (rest : HFile) :
    fileRecords ((l, grp) :: rest) =
      grp.map (fun ng => ⟨l, ng.1, ng.2.1, ng.2.2⟩) ++ fileRecords rest := by
  simp [fileRecords]

theorem fileKeys_cons (l : String) (grp : List (String × (List ℤ × List ℤ)))
    (rest : HFile) :
    fileKeys ((l, grp) :: rest) =
      grp.map (fun ng => (l, ng.1)) ++ fileKeys rest := by
  simp only [fileKeys, fileRecords_cons, List.map_append, List.map_map]
  rfl

theorem label_not_mem_fileKeys {c : HFile} {lb : String}
    (h : lb ∉ c.map Prod.fst) (x : String) : (lb, x) ∉ fileKeys c := by
  induction c with
  | nil => simp [fileKeys, fileRecords]
  | cons hd rest ih =>
    obtain ⟨l, grp⟩ := hd
    rw [fileKeys_cons]
    intro hmem
    rcases List.mem_append.mp hmem with hmem | hmem
    · obtain ⟨ng, _, heq⟩ := List.mem_map.mp hmem
      have : lb = l := (Prod.mk.injEq .. ▸ heq.symm).1
      exact h (by simp [this])
    · exact ih (fun hl => h (List.mem_cons_of_mem _ hl)) hmem

theorem insertRecord_ok_perm {r : FeatRecord} :
    ∀ {c c' : HFile}, insertRecord c r = .ok c' →
      fileRecords c' ~ fileRecords c ++ [r] := by
  intro c
  induction c with
  | nil =>
    intro c' h
    simp only [insertRecord, Except.ok.injEq] at h
    subst h
    simp [fileRecords]
  | cons hd rest ih =>
    intro c' h
    obtain ⟨l, grp⟩ := hd
    simp only [insertRecord] at h
    by_cases hl : l = r.label
    · rw [if_pos hl] at h
      by_cases hn : (grp.map Prod.fst).contains r.name
      · rw [if_pos hn] at h
        exact absurd h (by simp)
      · rw [if_neg hn] at h
        simp only [Except.ok.injEq] at h
        subst h
        subst hl
        rw [fileRecords_cons, fileRecords_cons, List.map_append]
        have hsingle : (([(r.name, (r.frames, r.features))]).map
            (fun ng => (⟨r.label, ng.1, ng.2.1, ng.2.2⟩ : FeatRecord))) = [r] := rfl
        rw [hsingle, List.append_assoc]
        exact append_singleton_mid_perm _ _ r
    · rw [if_neg hl] at h
      cases hrec : insertRecord rest r with
      | error e =>
        rw [hrec] at h
        exact absurd h (by simp [Except.map])
      | ok rest' =>
        rw [hrec] at h
        simp only [Except.map, Except.ok.injEq] at h
        subst h
        rw [fileRecords_cons, fileRecords_cons]
        have hperm := (ih hrec).append_left
          (grp.map (fun ng => (⟨l, ng.1, ng.2.1, ng.2.2⟩ : FeatRecord)))
        rw [← List.append_assoc] at hperm
        exact hperm

theorem insertRecord_label_sub {r : FeatRecord} :
    ∀ {c c' : HFile}, insertRecord c r = .ok c' →
      ∀ x ∈ c'.map Prod.fst, x ∈ c.map Prod.fst ∨ x = r.label := by
  intro c
  induction c with
  | nil =>
    intro c' h x hx
    simp only [insertRecord, Except.ok.injEq] at h
    subst h
    simp at hx
    exact Or.inr hx
  | cons hd rest ih =>
    intro c' h x hx
    obtain ⟨l, grp⟩ := hd
    simp only [insertRecord] at h
    by_cases hl : l = r.label
    · rw [if_pos hl] at h
      by_cases hn : (grp.map Prod.fst).contains r.name
      · rw [if_pos hn] at h
        exact absurd h (by simp)
      · rw [if_neg hn] at h
        simp only [Except.ok.injEq] at h
        subst h
        simp only [List.map_cons] at hx
        rcases List.mem_cons.mp hx with rfl | hx
        · exact Or.inl (by simp)
        · exact Or.inl (List.mem_cons_of_mem _ hx)
    · rw [if_neg hl] at h
      cases hrec : insertRecord rest r with
      | error e =>
        rw [hrec] at h
        exact absurd h (by simp [Except.map])
      | ok rest' =>
        rw [hrec] at h
        simp only [Except.map, Except.ok.injEq] at h
        subst h
        simp only [List.map_cons] at hx
        rcases List.mem_cons.mp hx with rfl | hx
        · exact Or.inl (by simp)
        · rcases ih hrec x hx with hmem | rfl
          · exact Or.inl (List.mem_cons_of_mem _ hmem)
          · exact Or.inr rfl

theorem insertRecord_outerNodup {r : FeatRecord} :
    ∀ {c c' : HFile}, (c.map Prod.fst).Nodup → insertRecord c r = .ok c' →
      (c'.map Prod.fst).Nodup := by
  intro c
  induction c with
  | nil =>
    intro c' _ h
    simp only [insertRecord, Except.ok.injEq] at h
    subst h
    simp
  | cons hd rest ih =>
    intro c' hnd h
    obtain ⟨l, grp⟩ := hd
    simp only [insertRecord] at h
    simp only [List.map_cons, List.nodup_cons] at hnd
    by_cases hl : l = r.label
    · rw [if_pos hl] at h
      by_cases hn : (grp.map Prod.fst).contains r.name
      · rw [if_pos hn] at h
        exact absurd h (by simp)
      · rw [if_neg hn] at h
        simp only [Except.ok.injEq] at h
        subst h
        simp only [List.map_cons, List.nodup_cons]
        exact hnd
    · rw [if_neg hl] at h
      cases hrec : insertRecord rest r with
      | error e =>
        rw [hrec] at h
        exact absurd h (by simp [Except.map])
      | ok rest' =>
        rw [hrec] at h
        simp only [Except.map, Except.ok.injEq] at h
        subst h
        simp only [List.map_cons, List.nodup_cons]
        refine ⟨?_, ih hnd.2 hrec⟩
        intro hmem
        rcases insertRecord_label_sub hrec l hmem with hmem | rfl
        · exact hnd.1 hmem
        · exact hl rfl

theorem insertRecord_okB_iff {r : FeatRecord} :
    ∀ {c : HFile}, (c.map Prod.fst).Nodup →
      (okB (insertRecord c r) = false ↔ featKey r ∈ fileKeys c) := by
  intro c
  induction c with
  | nil =>
    intro _
    simp [insertRecord, okB, fileKeys, fileRecords]
  | cons hd rest ih =>
    intro hnd
    obtain ⟨l, grp⟩ := hd
    simp only [List.map_cons, List.nodup_cons] at hnd
    simp only [insertRecord, fileKeys_cons, List.mem_append]
    by_cases hl : l = r.label
    · rw [if_pos hl]
      subst hl
      constructor
      · intro hfalse
        by_cases hn : (grp.map Prod.fst).contains r.name
        · left
          have : r.name ∈ grp.map Prod.fst := by
            simpa using hn
          obtain ⟨ng, hng, heq⟩ := List.mem_map.mp this
          exact List.mem_map.mpr ⟨ng, hng, by simp [featKey, heq]⟩
        · rw [if_neg hn] at hfalse
          exact absurd hfalse (by simp [okB])
      · intro hmem
        rcases hmem with hmem | hmem
        · obtain ⟨ng, hng, heq⟩ := List.mem_map.mp hmem
          have hname : r.name = ng.1 := by
            have := heq.symm
            simp [featKey, Prod.ext_iff] at this
            exact this
          have hn : (grp.map Prod.fst).contains r.name = true := by
            simp only [List.contains_iff_exists_mem_beq]
            exact ⟨ng.1, List.mem_map.mpr ⟨ng, hng, rfl⟩, by simp [hname]⟩
          rw [if_pos hn]
          simp [okB]
        · exact absurd hmem (label_not_mem_fileKeys hnd.1 r.name)
    · rw [if_neg hl]
      rw [okB_map]
      rw [ih hnd.2]
      constructor
      · intro hmem
        exact Or.inr hmem
      · intro hmem
        rcases hmem with hmem | hmem
        · obtain ⟨ng, _, heq⟩ := List.mem_map.mp hmem
          have : l = r.label := by
            have := heq.symm
            simp [featKey, Prod.ext_iff] at this
            exact this.1.symm
          exact absurd this hl
        · exact hmem

theorem insertRecord_keys_perm {r : FeatRecord} {c c' : HFile}
    (h : insertRecord c r = .ok c') :
    fileKeys c' ~ fileKeys c ++ [featKey r] := by
  have := (insertRecord_ok_perm h).map featKey
  rw [List.map_append] at this
  exact this

theorem save_fold_ok :
    ∀ (recs : List FeatRecord) (c c' : HFile),
      (c.map Prod.fst).Nodup → (fileKeys c).Nodup →
      recs.foldlM insertRecord c = .ok c' →
      ((fileKeys c ++ recs.map featKey).Nodup ∧
        fileRecords c' ~ fileRecords c ++ recs ∧ (c'.map Prod.fst).Nodup) := by
  intro recs
  induction recs with
  | nil =>
    intro c c' ho hk hfold
    simp only [List.foldlM_nil] at hfold
    have : c = c' := by
      simpa [Pure.pure, Except.pure] using hfold
    subst this
    exact ⟨by simpa using hk, by simp, ho⟩
  | cons r rest ih =>
    intro c c' ho hk hfold
    rw [List.foldlM_cons] at hfold
    cases h1 : insertRecord c r with
    | error e =>
      rw [h1] at hfold
      exact absurd hfold (by simp [Bind.bind, Except.bind])
    | ok c1 =>
      rw [h1] at hfold
      simp only [Bind.bind, Except.bind] at hfold
      have hnotmem : featKey r ∉ fileKeys c := by
        intro hmem
        have := (insertRecord_okB_iff ho).mpr hmem
        rw [h1] at this
        exact absurd this (by simp [okB])
      have ho1 : (c1.map Prod.fst).Nodup := insertRecord_outerNodup ho h1
      have hkperm : fileKeys c1 ~ fileKeys c ++ [featKey r] :=
        insertRecord_keys_perm h1
      have hk1 : (fileKeys c1).Nodup := by
        refine hkperm.symm.nodup ?_
        rw [List.nodup_append]
        exact ⟨hk, List.nodup_singleton _, by
          intro a ha hb
          rw [List.mem_singleton] at hb
          subst hb
          exact hnotmem ha⟩
      obtain ⟨hnd1, hperm1, ho'⟩ := ih c1 c' ho1 hk1 hfold
      constructor
      · rw [List.map_cons, List.append_cons]
        have : (fileKeys c ++ [featKey r]) ++ rest.map featKey ~
            fileKeys c1 ++ rest.map featKey :=
          hkperm.symm.append_right (rest.map featKey)
        exact this.symm.nodup hnd1
      · refine ⟨hperm1.trans ?_, ho'⟩
        have : fileRecords c1 ++ rest ~ (fileRecords c ++ [r]) ++ rest :=
          (insertRecord_ok_perm h1).append_right rest
        rw [List.append_assoc] at this
        have h2 : [r] ++ rest = r :: rest := rfl
        rw [h2] at this
        exact this

theorem save_fold_exists :
    ∀ (recs : List FeatRecord) (c : HFile),
      (c.map Prod.fst).Nodup →
      (fileKeys c ++ recs.map featKey).Nodup →
      ∃ c', recs.foldlM insertRecord c = .ok c' := by
  intro recs
  induction recs with
  | nil =>
    intro c _ _
    exact ⟨c, by rw [List.foldlM_nil]; rfl⟩
  | cons r rest ih =>
    intro c ho hnd
    rw [List.map_cons, List.append_cons] at hnd
    rw [List.nodup_append] at hnd
    obtain ⟨hndl, hndr, hdisj⟩ := hnd
    rw [List.nodup_append] at hndl
    have hnotmem : featKey r ∉ fileKeys c := by
      intro hmem
      exact hndl.2.2 hmem (List.mem_singleton_self _)
    have hok1 : okB (insertRecord c r) = true := by
      cases hins : okB (insertRecord c r) with
      | true => rfl
      | false => exact absurd ((insertRecord_okB_iff ho).mp hins) hnotmem
    obtain ⟨c1, hc1⟩ := (okB_true_iff _).mp hok1
    have ho1 : (c1.map Prod.fst).Nodup := insertRecord_outerNodup ho hc1
    have hkperm : fileKeys c1 ~ fileKeys c ++ [featKey r] :=
      insertRecord_keys_perm hc1
    have hnd1 : (fileKeys c1 ++ rest.map featKey).Nodup := by
      refine (hkperm.append_right (rest.map featKey)).symm.nodup ?_
      rw [List.nodup_append]
      refine ⟨by rw [List.nodup_append]; exact hndl, hndr, ?_⟩
      intro a ha hb
      rcases List.mem_append.mp ha with ha | ha
      · exact hdisj (List.mem_append_left _ ha) hb
      · exact hdisj (List.mem_append_right _ ha) hb
    obtain ⟨c', hc'⟩ := ih c1 ho1 hnd1
    refine ⟨c', ?_⟩
    rw [List.foldlM_cons, hc1]
    simpa [Bind.bind, Except.bind] using hc'

theorem fileRecords_map_dtype (c : HFile) (g : Option (ℤ → ℤ)) :
    (fileRecords c).map
        (fun r => (⟨r.label, r.name, r.frames, applyDtype g r.features⟩ : FeatRecord)) =
      c.flatMap (fun lg =>
        lg.2.map (fun ng => ⟨lg.1, ng.1, ng.2.1, applyDtype g ng.2.2⟩)) := by
  induction c with
  | nil => rfl
  | cons hd rest ih =>
    obtain ⟨l, grp⟩ := hd
    rw [fileRecords_cons, List.map_append, List.flatMap_cons, ih, List.map_map]
    rfl

theorem readFeatures_perm (c : HFile) (g : Option (ℤ → ℤ)) :
    readFeatures c g ~ (fileRecords c).map
      (fun r => (⟨r.label, r.name, r.frames, applyDtype g r.features⟩ : FeatRecord)) := by
  rw [fileRecords_map_dtype]
  unfold readFeatures
  have step1 : (sortAssoc c).flatMap (fun lg =>
        (sortAssoc lg.2).map
          (fun ng => (⟨lg.1, ng.1, ng.2.1, applyDtype g ng.2.2⟩ : FeatRecord))) ~
      (sortAssoc c).flatMap (fun lg =>
        lg.2.map (fun ng => ⟨lg.1, ng.1, ng.2.1, applyDtype g ng.2.2⟩)) :=
    Perm.flatMap_left _ (fun lg _ => (List.perm_insertionSort _ lg.2).map _)
  have step2 : (sortAssoc c).flatMap (fun lg =>
        lg.2.map (fun ng => (⟨lg.1, ng.1, ng.2.1, applyDtype g ng.2.2⟩ : FeatRecord))) ~
      c.flatMap (fun lg =>
        lg.2.map (fun ng => ⟨lg.1, ng.1, ng.2.1, applyDtype g ng.2.2⟩)) :=
    (List.perm_insertionSort _ c).flatMap_right _
  exact step1.trans step2

theorem sorted_recLt_of_sorted_nodup {l : List FeatRecord}
    (hs : List.Sorted recLe l) (hnd : (l.map featKey).Nodup) :
    List.Sorted recLt l := by
  rw [List.Sorted] at hs ⊢
  rw [List.Nodup, List.pairwise_map] at hnd
  refine (hs.and hnd).imp ?_
  intro a b h
  exact pairLt_of_pairLe_of_ne h.1 h.2

theorem sortRecords_eq_of_perm {l1 l2 : List FeatRecord} (h : l1 ~ l2)
    (hnd : (l1.map featKey).Nodup) : sortRecords l1 = sortRecords l2 := by
  apply List.eq_of_perm_of_sorted (r := recLt)
  · exact (List.perm_insertionSort recLe l1).trans
      (h.trans (List.perm_insertionSort recLe l2).symm)
  · refine sorted_recLt_of_sorted_nodup (List.sorted_insertionSort recLe l1) ?_
    exact ((List.perm_insertionSort recLe l1).map featKey).symm.nodup hnd
  · refine sorted_recLt_of_sorted_nodup (List.sorted_insertionSort recLe l2) ?_
    refine ((List.perm_insertionSort recLe l2).map featKey).symm.nodup ?_
    exact (h.map featKey).nodup hnd

/-! ## Claim C8: duplicate leaves in one write -/

/-- Claim C8: within one `save_features` write, creating a second leaf for
an already-written `(label, image-name)` pair is a fatal error
(`create_group` refuses to overwrite): the write succeeds exactly when the
archive's `(label, name)` keys are pairwise distinct, and a successful
write stores every record — nothing is silently overwritten. -/
theorem save_duplicate_leaf_fatal (recs : List FeatRecord) :
    (okB (saveFeatures recs) = true ↔ (recs.map featKey).Nodup) ∧
      ∀ c, saveFeatures recs = .ok c → fileRecords c ~ recs := by
  have hinit1 : ((initHFile.map Prod.fst) : List String).Nodup := by
    simp [initHFile]
  have hinit2 : (fileKeys initHFile).Nodup := by
    simp [fileKeys, fileRecords, initHFile]
  constructor
  · constructor
    · intro h
      obtain ⟨c, hc⟩ := (okB_true_iff _).mp h
      rw [saveFeatures] at hc
      have := (save_fold_ok recs initHFile c hinit1 hinit2 hc).1
      simpa [fileKeys, fileRecords, initHFile] using this
    · intro hnd
      obtain ⟨c, hc⟩ := save_fold_exists recs initHFile hinit1
        (by simpa [fileKeys, fileRecords, initHFile] using hnd)
      rw [saveFeatures, hc]
      rfl
  · intro c hc
    rw [saveFeatures] at hc
    have := (save_fold_ok recs initHFile c hinit1 hinit2 hc).2.1
    simpa [fileRecords, initHFile] using this

/-! ## Claim C2: the write and read round trip -/

/-- Claim C2: for every archive whose `(label, name)` pairs are unique,
writing with `save_features` succeeds, and reading the written file back
yields — after sorting both the written and the read archive by
`(label, name)` — identical records: labels, names and frame arrays
exactly equal, and descriptor arrays exactly equal on a plain read or
element-wise precision-reduced when a dtype coercion `g` is requested. -/
theorem save_read_round_trip (recs : List FeatRecord) (g : ℤ → ℤ)
    (huniq : (recs.map featKey).Nodup) :
    ∃ c, saveFeatures recs = .ok c ∧
      sortRecords (readFeatures c none) = sortRecords recs ∧
      sortRecords (readFeatures c (some g)) =
        sortRecords (recs.map (coerceRec g)) := by
  have hinit1 : ((initHFile.map Prod.fst) : List String).Nodup := by
    simp [initHFile]
  have hinit2 : (fileKeys initHFile).Nodup := by
    simp [fileKeys, fileRecords, initHFile]
  obtain ⟨c, hc⟩ := save_fold_exists recs initHFile hinit1
    (by simpa [fileKeys, fileRecords, initHFile] using huniq)
  have hrecs : fileRecords c ~ recs := by
    have := (save_fold_ok recs initHFile c hinit1 hinit2 hc).2.1
    simpa [fileRecords, initHFile] using this
  refine ⟨c, by rw [saveFeatures]; exact hc, ?_, ?_⟩
  · have hid : (fileRecords c).map
        (fun r => (⟨r.label, r.name, r.frames, applyDtype none r.features⟩ : FeatRecord)) =
        fileRecords c := by
      simp [applyDtype]
    have hperm : readFeatures c none ~ recs := by
      have h1 := readFeatures_perm c none
      rw [hid] at h1
      exact h1.trans hrecs
    exact sortRecords_eq_of_perm hperm ((hperm.map featKey).symm.nodup huniq)
  · have hco : (fileRecords c).map
        (fun r => (⟨r.label, r.name, r.frames, applyDtype (some g) r.features⟩ : FeatRecord)) =
        (fileRecords c).map (coerceRec g) := rfl
    have hperm : readFeatures c (some g) ~ recs.map (coerceRec g) := by
      have h1 := readFeatures_perm c (some g)
      rw [hco] at h1
      exact h1.trans (hrecs.map (coerceRec g))
    have hk : (recs.map (coerceRec g)).map featKey = recs.map featKey := by
      rw [List.map_map]
      rfl
    refine sortRecords_eq_of_perm hperm ((hperm.map featKey).symm.nodup ?_)
    rw [hk]
    exact huniq

/-- Claim C2 witness: a two-record archive with distinct keys, written and
read back, both with and without a dtype coercion. -/
theorem save_read_round_trip_witness :
    (([⟨"b", "y", [1], [2]⟩, ⟨"a", "x", [3], [4]⟩] : List FeatRecord).map featKey).Nodup ∧
      ∃ c, saveFeatures [⟨"b", "y", [1], [2]⟩, ⟨"a", "x", [3], [4]⟩] = .ok c ∧
        sortRecords (readFeatures c none) =
          sortRecords [⟨"b", "y", [1], [2]⟩, ⟨"a", "x", [3], [4]⟩] ∧
        sortRecords (readFeatures c (some (fun z => z / 2))) =
          sortRecords ([⟨"b", "y", [1], [2]⟩, ⟨"a", "x", [3], [4]⟩].map
            (coerceRec (fun z => z / 2))) :=
  ⟨by decide, save_read_round_trip _ _ (by decide)⟩

/-! ## Resolution lemmas -/

theorem rsplitExt_error_eq {fname : String} {e : ResolveError}
    (h : rsplitExt fname = .error e) : e = .indexError := by
  by_cases hc : fname.data.contains '.'
  · rw [rsplitExt, if_pos hc] at h
    exact absurd h (by simp)
  · rw [rsplitExt, if_neg hc] at h
    simpa using h.symm

theorem resolveFile_split_error {exts : List String} {dirname label fname : String}
    {st : ResolveState} (hsp : okB (rsplitExt fname) = false) :
    resolveFile exts dirname label st fname = .error .indexError := by
  cases h2 : rsplitExt fname with
  | ok e =>
    rw [h2] at hsp
    exact absurd hsp (by simp [okB])
  | error e =>
    have he := rsplitExt_error_eq h2
    subst he
    simp [resolveFile, h2, Bind.bind, Except.bind]

theorem resolveFile_not_image (exts : List String) (dirname label : String)
    (st : ResolveState) {fname ext : String} (hsp : rsplitExt fname = .ok ext)
    (hq : exts.contains (lowerStr ext) = false) :
    resolveFile exts dirname label st fname = .ok st ∧
      isImageFile exts fname = false := by
  have hq2 : lowerStr ext ∉ exts := by
    simpa using hq
  constructor
  · simp [resolveFile, hsp, Bind.bind, Except.bind, hq2]
  · simp [isImageFile, hsp, hq2]

theorem resolveFile_dup {exts : List String} {dirname label fname ext : String}
    {st : ResolveState} (hsp : rsplitExt fname = .ok ext)
    (hq : exts.contains (lowerStr ext) = true)
    (hm : (label, fname) ∈ st.seen) :
    resolveFile exts dirname label st fname = .error (.dupImage fname label) := by
  have hq2 : lowerStr ext ∈ exts := by
    simpa using hq
  simp [resolveFile, hsp, Bind.bind, Except.bind, hq2, hm]

theorem resolveFile_fresh (exts : List String) (dirname label : String)
    (st : ResolveState) {fname ext : String} (hsp : rsplitExt fname = .ok ext)
    (hq : exts.contains (lowerStr ext) = true)
    (hm : (label, fname) ∉ st.seen) :
    resolveFile exts dirname label st fname =
        .ok ⟨(label, fname) :: st.seen, addIm st.ims label (dirname, fname)⟩ ∧
      isImageFile exts fname = true := by
  have hq2 : lowerStr ext ∈ exts := by
    simpa using hq
  constructor
  · simp [resolveFile, hsp, Bind.bind, Except.bind, hq2, hm]
  · simp [isImageFile, hsp, hq2]

theorem imsTriples_cons (l : String) (ps : List (String × String))
    (rest : List (String × List (String × String))) :
    imsTriples ((l, ps) :: rest) =
      ps.map (fun p => (l, p.1, p.2)) ++ imsTriples rest := by
  simp [imsTriples]

theorem imsTriples_addIm (label : String) (p : String × String) :
    ∀ ims, imsTriples (addIm ims label p) ~
      imsTriples ims ++ [(label, p.1, p.2)] := by
  intro ims
  induction ims with
  | nil =>
    simp [addIm, imsTriples]
  | cons hd rest ih =>
    obtain ⟨l, ps⟩ := hd
    by_cases hl : l = label
    · subst hl
      rw [addIm, if_pos rfl, imsTriples_cons, imsTriples_cons, List.map_append]
      have hs : ([p].map (fun q => (l, q.1, q.2))) = [(l, p.1, p.2)] := rfl
      rw [hs, List.append_assoc]
      exact append_singleton_mid_perm _ _ _
    · rw [addIm, if_neg hl, imsTriples_cons, imsTriples_cons]
      have := ih.append_left (ps.map (fun q => (l, q.1, q.2)))
      rw [← List.append_assoc] at this
      exact this

theorem flatQualFiles_cons_not (exts : List String) {t : String × String × String}
    (ts : List (String × String × String)) (h : isImageFile exts t.2.2 = false) :
    flatQualFiles exts (t :: ts) = flatQualFiles exts ts := by
  simp [flatQualFiles, List.filter_cons, h]

theorem flatQualFiles_cons_yes (exts : List String) {t : String × String × String}
    (ts : List (String × String × String)) (h : isImageFile exts t.2.2 = true) :
    flatQualFiles exts (t :: ts) = t :: flatQualFiles exts ts := by
  simp [flatQualFiles, List.filter_cons, h]

theorem resolve_flat_ok (exts : List String) :
    ∀ (ts : List (String × String × String)) (st st' : ResolveState),
      st.seen.Nodup →
      ts.foldlM (resolveFileStep exts) st = .ok st' →
      ((st.seen ++ flatQualPairs exts ts).Nodup ∧
        st'.seen ~ flatQualPairs exts ts ++ st.seen ∧
        imsTriples st'.ims ~ imsTriples st.ims ++ flatQualTriples exts ts) := by
  intro ts
  induction ts with
  | nil =>
    intro st st' hnd hfold
    simp only [List.foldlM_nil] at hfold
    have : st = st' := by
      simpa [Pure.pure, Except.pure] using hfold
    subst this
    simp [flatQualPairs, flatQualTriples, flatQualFiles, hnd]
  | cons t rest ih =>
    intro st st' hnd hfold
    rw [List.foldlM_cons] at hfold
    cases hsp : okB (rsplitExt t.2.2) with
    | false =>
      rw [show resolveFileStep exts st t = .error .indexError from
        resolveFile_split_error hsp] at hfold
      exact absurd hfold (by simp [Bind.bind, Except.bind])
    | true =>
      obtain ⟨ext, hext⟩ := (okB_true_iff _).mp hsp
      by_cases hq : exts.contains (lowerStr ext) = true
      · by_cases hm : (t.2.1, t.2.2) ∈ st.seen
        · rw [show resolveFileStep exts st t = .error (.dupImage t.2.2 t.2.1) from
            resolveFile_dup hext hq hm] at hfold
          exact absurd hfold (by simp [Bind.bind, Except.bind])
        · obtain ⟨hstep, himg⟩ := resolveFile_fresh exts t.1 t.2.1 st hext hq hm
          rw [show resolveFileStep exts st t =
              .ok ⟨(t.2.1, t.2.2) :: st.seen, addIm st.ims t.2.1 (t.1, t.2.2)⟩ from hstep] at hfold
          simp only [Bind.bind, Except.bind] at hfold
          have hnd1 : ((t.2.1, t.2.2) :: st.seen).Nodup := List.nodup_cons.mpr ⟨hm, hnd⟩
          obtain ⟨ha, hb, hc⟩ := ih _ st' hnd1 hfold
          have hqp : flatQualPairs exts (t :: rest) =
              (t.2.1, t.2.2) :: flatQualPairs exts rest := by
            rw [flatQualPairs, flatQualFiles_cons_yes exts rest himg]
            rfl
          have hqt : flatQualTriples exts (t :: rest) =
              (t.2.1, t.1, t.2.2) :: flatQualTriples exts rest := by
            rw [flatQualTriples, flatQualFiles_cons_yes exts rest himg]
            rfl
          refine ⟨?_, ?_, ?_⟩
          · rw [hqp]
            refine (List.perm_middle).symm.nodup ?_
            simpa using ha
          · rw [hqp]
            refine hb.trans ?_
            show flatQualPairs exts rest ++ (t.2.1, t.2.2) :: st.seen ~
              (t.2.1, t.2.2) :: (flatQualPairs exts rest ++ st.seen)
            exact List.perm_middle
          · rw [hqt]
            refine hc.trans ?_
            have h1 : imsTriples (addIm st.ims t.2.1 (t.1, t.2.2)) ~
                imsTriples st.ims ++ [(t.2.1, t.1, t.2.2)] :=
              imsTriples_addIm t.2.1 (t.1, t.2.2) st.ims
            have h2 := h1.append_right (flatQualTriples exts rest)
            refine h2.trans ?_
            rw [List.append_assoc]
            exact Perm.refl _
      · have hqf : exts.contains (lowerStr ext) = false := by
          simpa using hq
        obtain ⟨hstep, himg⟩ := resolveFile_not_image exts t.1 t.2.1 st hext hqf
        rw [show resolveFileStep exts st t = .ok st from hstep] at hfold
        simp only [Bind.bind, Except.bind] at hfold
        have heq1 : flatQualPairs exts (t :: rest) = flatQualPairs exts rest := by
          rw [flatQualPairs, flatQualFiles_cons_not exts rest himg]
          rfl
        have heq2 : flatQualTriples exts (t :: rest) = flatQualTriples exts rest := by
          rw [flatQualTriples, flatQualFiles_cons_not exts rest himg]
          rfl
        rw [heq1, heq2]
        exact ih st st' hnd hfold

theorem perm_count_general {γ : Type} [BEq γ] {l1 l2 : List γ} (h : l1 ~ l2)
    (x : γ) : l1.count x = l2.count x := by
  induction h with
  | nil => rfl
  | cons y _ ih => simp [List.count_cons, ih]
  | swap y z l => simp [List.count_cons]; omega
  | trans _ _ ih1 ih2 => exact ih1.trans ih2

theorem resolve_flat_exists (exts : List String) :
    ∀ (ts : List (String × String × String)) (st : ResolveState),
      (∀ t ∈ ts, okB (rsplitExt t.2.2) = true) →
      (st.seen ++ flatQualPairs exts ts).Nodup →
      ∃ st', ts.foldlM (resolveFileStep exts) st = .ok st' := by
  intro ts
  induction ts with
  | nil =>
    intro st _ _
    exact ⟨st, by rw [List.foldlM_nil]; rfl⟩
  | cons t rest ih =>
    intro st hdot hnd
    obtain ⟨ext, hext⟩ := (okB_true_iff _).mp (hdot t (List.mem_cons_self t rest))
    have hdotr : ∀ u ∈ rest, okB (rsplitExt u.2.2) = true :=
      fun u hu => hdot u (List.mem_cons_of_mem t hu)
    by_cases hq : exts.contains (lowerStr ext) = true
    · have himg : isImageFile exts t.2.2 = true := by
        simp [isImageFile, hext]
        simpa using hq
      have hqp : flatQualPairs exts (t :: rest) =
          (t.2.1, t.2.2) :: flatQualPairs exts rest := by
        rw [flatQualPairs, flatQualFiles_cons_yes exts rest himg]
        rfl
      rw [hqp] at hnd
      have hnd2 : ((t.2.1, t.2.2) :: (st.seen ++ flatQualPairs exts rest)).Nodup :=
        List.perm_middle.nodup hnd
      rw [List.nodup_cons] at hnd2
      have hm : (t.2.1, t.2.2) ∉ st.seen :=
        fun hmem => hnd2.1 (List.mem_append_left _ hmem)
      obtain ⟨hstep, _⟩ := resolveFile_fresh exts t.1 t.2.1 st hext hq hm
      obtain ⟨st', hst'⟩ := ih ⟨(t.2.1, t.2.2) :: st.seen, addIm st.ims t.2.1 (t.1, t.2.2)⟩
        hdotr (by
          show (((t.2.1, t.2.2) :: st.seen) ++ flatQualPairs exts rest).Nodup
          rw [List.cons_append]
          rw [List.nodup_cons]
          exact ⟨hnd2.1, hnd2.2⟩)
      refine ⟨st', ?_⟩
      rw [List.foldlM_cons,
        show resolveFileStep exts st t =
          .ok ⟨(t.2.1, t.2.2) :: st.seen, addIm st.ims t.2.1 (t.1, t.2.2)⟩ from hstep]
      simpa [Bind.bind, Except.bind] using hst'
    · have hqf : exts.contains (lowerStr ext) = false := by
        simpa using hq
      obtain ⟨hstep, himg⟩ := resolveFile_not_image exts t.1 t.2.1 st hext hqf
      have hqp : flatQualPairs exts (t :: rest) = flatQualPairs exts rest := by
        rw [flatQualPairs, flatQualFiles_cons_not exts rest himg]
        rfl
      rw [hqp] at hnd
      obtain ⟨st', hst'⟩ := ih st hdotr hnd
      refine ⟨st', ?_⟩
      rw [List.foldlM_cons, show resolveFileStep exts st t = .ok st from hstep]
      simpa [Bind.bind, Except.bind] using hst'

theorem resolve_flat_dup (exts : List String) :
    ∀ (ts : List (String × String × String)) (st : ResolveState) (f l : String),
      st.seen.Nodup →
      ts.foldlM (resolveFileStep exts) st = .error (.dupImage f l) →
      2 ≤ (st.seen ++ flatQualPairs exts ts).count (l, f) := by
  intro ts
  induction ts with
  | nil =>
    intro st f l _ hfold
    rw [List.foldlM_nil] at hfold
    exact absurd hfold (by simp [Pure.pure, Except.pure])
  | cons t rest ih =>
    intro st f l hnd hfold
    rw [List.foldlM_cons] at hfold
    cases hsp : okB (rsplitExt t.2.2) with
    | false =>
      rw [show resolveFileStep exts st t = .error .indexError from
        resolveFile_split_error hsp] at hfold
      simp only [Bind.bind, Except.bind] at hfold
      exact absurd hfold (by simp)
    | true =>
      obtain ⟨ext, hext⟩ := (okB_true_iff _).mp hsp
      by_cases hq : exts.contains (lowerStr ext) = true
      · have himg : isImageFile exts t.2.2 = true := by
          simp [isImageFile, hext]
          simpa using hq
        have hqp : flatQualPairs exts (t :: rest) =
            (t.2.1, t.2.2) :: flatQualPairs exts rest := by
          rw [flatQualPairs, flatQualFiles_cons_yes exts rest himg]
          rfl
        by_cases hm : (t.2.1, t.2.2) ∈ st.seen
        · rw [show resolveFileStep exts st t = .error (.dupImage t.2.2 t.2.1) from
            resolveFile_dup hext hq hm] at hfold
          simp only [Bind.bind, Except.bind, Except.error.injEq,
            ResolveError.dupImage.injEq] at hfold
          obtain ⟨hf, hl⟩ := hfold
          subst hf
          subst hl
          rw [hqp]
          have h1 : 1 ≤ st.seen.count (t.2.1, t.2.2) := List.count_pos_iff.mpr hm
          have h2 : (st.seen ++ (t.2.1, t.2.2) :: flatQualPairs exts rest).count
              (t.2.1, t.2.2) =
              st.seen.count (t.2.1, t.2.2) +
                ((t.2.1, t.2.2) :: flatQualPairs exts rest).count (t.2.1, t.2.2) :=
            List.count_append ..
          rw [h2]
          have h3 : 1 ≤ ((t.2.1, t.2.2) :: flatQualPairs exts rest).count
              (t.2.1, t.2.2) :=
            List.count_pos_iff.mpr (List.mem_cons_self ..)
          omega
        · obtain ⟨hstep, _⟩ := resolveFile_fresh exts t.1 t.2.1 st hext hq hm
          rw [show resolveFileStep exts st t =
              .ok ⟨(t.2.1, t.2.2) :: st.seen, addIm st.ims t.2.1 (t.1, t.2.2)⟩ from
              hstep] at hfold
          simp only [Bind.bind, Except.bind] at hfold
          have hrec := ih ⟨(t.2.1, t.2.2) :: st.seen, addIm st.ims t.2.1 (t.1, t.2.2)⟩
            f l (List.nodup_cons.mpr ⟨hm, hnd⟩) hfold
          rw [hqp]
          have hperm : ((t.2.1, t.2.2) :: (st.seen ++ flatQualPairs exts rest)) ~
              (st.seen ++ (t.2.1, t.2.2) :: flatQualPairs exts rest) :=
            List.perm_middle.symm
          have hrec2 : 2 ≤ ((t.2.1, t.2.2) :: (st.seen ++ flatQualPairs exts rest)).count
              (l, f) := hrec
          have hcnt := perm_count_general hperm (l, f)
          omega
      · have hqf : exts.contains (lowerStr ext) = false := by
          simpa using hq
        obtain ⟨hstep, himg⟩ := resolveFile_not_image exts t.1 t.2.1 st hext hqf
        rw [show resolveFileStep exts st t = .ok st from hstep] at hfold
        simp only [Bind.bind, Except.bind] at hfold
        have hqp : flatQualPairs exts (t :: rest) = flatQualPairs exts rest := by
          rw [flatQualPairs, flatQualFiles_cons_not exts rest himg]
          rfl
        rw [hqp]
        exact ih st f l hnd hfold

theorem resolve_flat_no_index (exts : List String) :
    ∀ (ts : List (String × String × String)) (st : ResolveState),
      (∀ t ∈ ts, okB (rsplitExt t.2.2) = true) →
      ts.foldlM (resolveFileStep exts) st ≠ .error .indexError := by
  intro ts
  induction ts with
  | nil =>
    intro st _ hfold
    rw [List.foldlM_nil] at hfold
    exact absurd hfold (by simp [Pure.pure, Except.pure])
  | cons t rest ih =>
    intro st hdot hfold
    rw [List.foldlM_cons] at hfold
    obtain ⟨ext, hext⟩ := (okB_true_iff _).mp (hdot t (List.mem_cons_self t rest))
    have hdotr : ∀ u ∈ rest, okB (rsplitExt u.2.2) = true :=
      fun u hu => hdot u (List.mem_cons_of_mem t hu)
    by_cases hq : exts.contains (lowerStr ext) = true
    · by_cases hm : (t.2.1, t.2.2) ∈ st.seen
      · rw [show resolveFileStep exts st t = .error (.dupImage t.2.2 t.2.1) from
          resolveFile_dup hext hq hm] at hfold
        simp only [Bind.bind, Except.bind] at hfold
        exact absurd hfold (by simp)
      · obtain ⟨hstep, _⟩ := resolveFile_fresh exts t.1 t.2.1 st hext hq hm
        rw [show resolveFileStep exts st t =
            .ok ⟨(t.2.1, t.2.2) :: st.seen, addIm st.ims t.2.1 (t.1, t.2.2)⟩ from
            hstep] at hfold
        simp only [Bind.bind, Except.bind] at hfold
        exact ih _ hdotr hfold
    · have hqf : exts.contains (lowerStr ext) = false := by
        simpa using hq
      obtain ⟨hstep, _⟩ := resolveFile_not_image exts t.1 t.2.1 st hext hqf
      rw [show resolveFileStep exts st t = .ok st from hstep] at hfold
      simp only [Bind.bind, Except.bind] at hfold
      exact ih st hdotr hfold

theorem foldlM_map_fn {m : Type → Type} [Monad m] {γ ε β : Type} (g : γ → ε)
    (f : β → ε → m β) : ∀ (l : List γ) (b : β),
      (l.map g).foldlM f b = l.foldlM (fun b x => f b (g x)) b
  | [], _ => rfl
  | x :: xs, b => by
    rw [List.map_cons, List.foldlM_cons, List.foldlM_cons]
    exact congrArg (fun k => f b (g x) >>= k) (funext (fun b' => foldlM_map_fn g f xs b'))

theorem resolveDirs_flatten (exts : List String) (listing : String → List String) :
    ∀ (dirs : List (String × String)) (st : ResolveState),
      dirs.foldlM (resolveDir exts listing) st =
        (filesOf listing dirs).foldlM (resolveFileStep exts) st
  | [], _ => rfl
  | p :: rest, st => by
    have hfiles : filesOf listing (p :: rest) =
        ((listing p.1).map (fun f => (p.1, p.2, f))) ++ filesOf listing rest := by
      simp [filesOf]
    rw [List.foldlM_cons, hfiles, List.foldlM_append, foldlM_map_fn]
    exact congrArg (fun k => resolveDir exts listing st p >>= k)
      (funext (fun st' => resolveDirs_flatten exts listing rest st'))

theorem flatQualTriples_append (exts : List String)
    (ts1 ts2 : List (String × String × String)) :
    flatQualTriples exts (ts1 ++ ts2) =
      flatQualTriples exts ts1 ++ flatQualTriples exts ts2 := by
  rw [flatQualTriples, flatQualFiles, List.filter_append, List.map_append]
  rfl

theorem qualTriples_flatten (exts : List String) (listing : String → List String) :
    ∀ dirs, qualTriples exts listing dirs = flatQualTriples exts (filesOf listing dirs)
  | [] => rfl
  | p :: rest => by
    have h1 : qualTriples exts listing (p :: rest) =
        qualFiles exts listing p ++ qualTriples exts listing rest := by
      simp [qualTriples]
    have h2 : filesOf listing (p :: rest) =
        (listing p.1).map (fun f => (p.1, p.2, f)) ++ filesOf listing rest := by
      simp [filesOf]
    rw [h1, h2, flatQualTriples_append, ← qualTriples_flatten exts listing rest]
    congr 1
    rw [qualFiles, flatQualTriples, flatQualFiles, List.filter_map, List.map_map]
    rfl

theorem tripPairs_flatQualTriples (exts : List String)
    (ts : List (String × String × String)) :
    tripPairs (flatQualTriples exts ts) = flatQualPairs exts ts := by
  rw [tripPairs, flatQualTriples, List.map_map, flatQualPairs]
  rfl

theorem hdot_files {listing : String → List String} {dirs : List (String × String)}
    (hdot : ∀ p ∈ dirs, ∀ f ∈ listing p.1, okB (rsplitExt f) = true) :
    ∀ t ∈ filesOf listing dirs, okB (rsplitExt t.2.2) = true := by
  intro t ht
  rw [filesOf, List.mem_flatMap] at ht
  obtain ⟨p, hp, hmem⟩ := ht
  obtain ⟨f, hf, rfl⟩ := List.mem_map.mp hmem
  exact hdot p hp f hf

theorem exceptMap_ok {ε α β : Type} {f : α → β} {e : Except ε α} {b : β}
    (h : e.map f = .ok b) : ∃ a, e = .ok a ∧ f a = b := by
  cases e with
  | ok a =>
    refine ⟨a, rfl, ?_⟩
    simpa [Except.map] using h
  | error err => exact absurd h (by simp [Except.map])

theorem exceptMap_error {ε α β : Type} {f : α → β} {e : Except ε α} {err : ε} :
    e.map f = .error err ↔ e = .error err := by
  cases e <;> simp [Except.map]

theorem not_nodup_of_two_le_count {γ : Type} [BEq γ] [LawfulBEq γ] {x : γ} :
    ∀ {l : List γ}, 2 ≤ l.count x → ¬ l.Nodup := by
  intro l
  induction l with
  | nil => intro h; simp at h
  | cons y rest ih =>
    intro h hnd
    rw [List.nodup_cons] at hnd
    rw [List.count_cons] at h
    by_cases hyx : y = x
    · subst hyx
      have : rest.count y = 0 := by
        rw [List.count_eq_zero]
        exact hnd.1
      simp [this] at h
    · have : (y == x) = false := beq_eq_false_iff_ne.mpr hyx
      rw [this] at h
      simp at h
      exact ih h hnd.2

/-! ## Claim C4: resolver output and the duplicate-image error -/

/-- Claim C4: over directory listings whose entries all contain a dot (a
dot-free entry aborts earlier with `IndexError`, claim C5), resolution
yields a mapping whose `(label, directory, filename)` triples are exactly
the qualifying entries, each exactly once; and the duplicate-image
`ValueError` naming a filename and label is raised precisely when the same
`(label, filename)` identity occurs more than once across the qualifying
entries, the named pair itself occurring at least twice. -/
theorem resolver_duplicate_detection (exts : List String)
    (listing : String → List String) (dirs : List (String × String))
    (hdot : ∀ p ∈ dirs, ∀ f ∈ listing p.1, okB (rsplitExt f) = true) :
    (∀ ims, resolveImages exts listing dirs = .ok ims →
        imsTriples ims ~ qualTriples exts listing dirs ∧ (imsTriples ims).Nodup) ∧
      ((∃ f l, resolveImages exts listing dirs = .error (.dupImage f l)) ↔
        ¬ (tripPairs (qualTriples exts listing dirs)).Nodup) ∧
      (∀ f l, resolveImages exts listing dirs = .error (.dupImage f l) →
        2 ≤ (tripPairs (qualTriples exts listing dirs)).count (l, f)) := by
  have hres : resolveImages exts listing dirs =
      ((filesOf listing dirs).foldlM (resolveFileStep exts) initState).map
        ResolveState.ims := by
    rw [resolveImages, resolveDirs_flatten]
  have hqt := qualTriples_flatten exts listing dirs
  have hpp : tripPairs (qualTriples exts listing dirs) =
      flatQualPairs exts (filesOf listing dirs) := by
    rw [hqt, tripPairs_flatQualTriples]
  have hinit : (initState.seen).Nodup := by
    simp [initState]
  have hcount : ∀ f l, resolveImages exts listing dirs = .error (.dupImage f l) →
      2 ≤ (tripPairs (qualTriples exts listing dirs)).count (l, f) := by
    intro f l herr
    rw [hres, exceptMap_error] at herr
    have := resolve_flat_dup exts (filesOf listing dirs) initState f l hinit herr
    rw [hpp]
    simpa [initState] using this
  refine ⟨?_, ⟨?_, ?_⟩, hcount⟩
  · intro ims h
    rw [hres] at h
    obtain ⟨st', hst', him⟩ := exceptMap_ok h
    obtain ⟨ha, _, hc⟩ := resolve_flat_ok exts (filesOf listing dirs) initState st'
      hinit hst'
    have himst : imsTriples ims ~ flatQualTriples exts (filesOf listing dirs) := by
      rw [← him]
      simpa [initState, imsTriples] using hc
    constructor
    · rw [hqt]
      exact himst
    · have hpnd : (flatQualPairs exts (filesOf listing dirs)).Nodup := by
        simpa [initState] using ha
      have htnd : (flatQualTriples exts (filesOf listing dirs)).Nodup := by
        refine List.Nodup.of_map (fun t => (t.1, t.2.2)) ?_
        rw [show (flatQualTriples exts (filesOf listing dirs)).map
            (fun t => (t.1, t.2.2)) = flatQualPairs exts (filesOf listing dirs) from
          tripPairs_flatQualTriples exts (filesOf listing dirs)]
        exact hpnd
      exact himst.symm.nodup htnd
  · intro ⟨f, l, herr⟩
    have := hcount f l herr
    intro hnd
    rw [hpp] at this
    refine not_nodup_of_two_le_count this ?_
    rw [← hpp]
    exact hnd
  · intro hnot
    cases hove : resolveImages exts listing dirs with
    | ok ims =>
      rw [hres] at hove
      obtain ⟨st', hst', _⟩ := exceptMap_ok hove
      obtain ⟨ha, _, _⟩ := resolve_flat_ok exts (filesOf listing dirs) initState st'
        hinit hst'
      refine absurd ?_ hnot
      rw [hpp]
      simpa [initState] using ha
    | error e =>
      cases e with
      | indexError =>
        rw [hres, exceptMap_error] at hove
        exact absurd hove (resolve_flat_no_index exts (filesOf listing dirs)
          initState (hdot_files hdot))
      | dupImage f l => exact ⟨f, l, rfl⟩

/-- Claim C4 witness: two directories mapped to the same label `cat`, each
listing the same filename `x.jpg`; the duplicate-image error is raised and
the identity `(cat, x.jpg)` indeed occurs twice among the qualifying
entries. -/
theorem resolver_duplicate_detection_witness :
    (∃ f l, resolveImages ["jpg"] (fun _ => ["x.jpg"])
        [("catA", "cat"), ("catB", "cat")] = .error (.dupImage f l)) ↔
      ¬ (tripPairs (qualTriples ["jpg"] (fun _ => ["x.jpg"])
          [("catA", "cat"), ("catB", "cat")])).Nodup :=
  (resolver_duplicate_detection ["jpg"] (fun _ => ["x.jpg"])
    [("catA", "cat"), ("catB", "cat")] (by decide)).2.1

/-! ## Claim C5: entries that do not qualify -/

/-- Claim C5 counterexample: the claim says a filename containing no dot
at all is simply excluded and never a source of failure; in the code
`fname.rsplit('.', 1)[1]` raises `IndexError` on such a filename, so a
directory containing only the extension-less entry `noext` aborts
resolution instead of returning an empty selection. -/
theorem dotless_filename_raises :
    resolveImages ["jpg", "png", "bmp"] (fun _ => ["noext"]) [("d", "d")] =
      .error .indexError := rfl

/-- Claim C5 amended: provided every listed filename contains at least one
dot, resolution never raises `IndexError`, and every entry whose lowercase
extension is not in the allowed set is simply excluded: the output
contains only qualifying files.  A filename with no dot instead raises
`IndexError` at line 142. -/
theorem non_image_entries_skipped (exts : List String)
    (listing : String → List String) (dirs : List (String × String))
    (hdot : ∀ p ∈ dirs, ∀ f ∈ listing p.1, okB (rsplitExt f) = true) :
    resolveImages exts listing dirs ≠ .error .indexError ∧
      ∀ ims, resolveImages exts listing dirs = .ok ims →
        ∀ t ∈ imsTriples ims, isImageFile exts t.2.2 = true := by
  have hres : resolveImages exts listing dirs =
      ((filesOf listing dirs).foldlM (resolveFileStep exts) initState).map
        ResolveState.ims := by
    rw [resolveImages, resolveDirs_flatten]
  constructor
  · rw [hres]
    intro h
    rw [exceptMap_error] at h
    exact resolve_flat_no_index exts (filesOf listing dirs) initState
      (hdot_files hdot) h
  · intro ims h t ht
    rw [hres] at h
    obtain ⟨st', hst', him⟩ := exceptMap_ok h
    obtain ⟨_, _, hc⟩ := resolve_flat_ok exts (filesOf listing dirs) initState st'
      (by simp [initState]) hst'
    have himst : imsTriples ims ~ flatQualTriples exts (filesOf listing dirs) := by
      rw [← him]
      simpa [initState, imsTriples] using hc
    have htm : t ∈ flatQualTriples exts (filesOf listing dirs) :=
      himst.subset ht
    rw [flatQualTriples, List.mem_map] at htm
    obtain ⟨u, hu, rfl⟩ := htm
    rw [flatQualFiles, List.mem_filter] at hu
    exact hu.2

/-- Claim C5 amended, witness: a directory with a non-image entry
`a.txt` and an image `b.jpg` resolves without failure, keeping only
qualifying files. -/
theorem non_image_entries_skipped_witness :
    resolveImages ["jpg"] (fun _ => ["a.txt", "b.jpg"]) [("d", "d")] ≠
        .error .indexError ∧
      ∀ ims, resolveImages ["jpg"] (fun _ => ["a.txt", "b.jpg"]) [("d", "d")] = .ok ims →
        ∀ t ∈ imsTriples ims, isImageFile ["jpg"] t.2.2 = true :=
  non_image_entries_skipped ["jpg"] (fun _ => ["a.txt", "b.jpg"]) [("d", "d")]
    (by decide)

/-! ## Claim C10: duplicate directories in a plain iterable -/

theorem dedupFold_mem_acc {x : String} :
    ∀ (ds : List String) (acc : List String), x ∈ acc →
      x ∈ ds.foldl (fun acc d => if d ∈ acc then acc else acc ++ [d]) acc
  | [], _, h => h
  | d :: rest, acc, h => by
    rw [List.foldl_cons]
    by_cases hd : d ∈ acc
    · rw [if_pos hd]
      exact dedupFold_mem_acc rest acc h
    · rw [if_neg hd]
      exact dedupFold_mem_acc rest (acc ++ [d]) (List.mem_append_left _ h)

theorem dedupFold_mem_list {x : String} :
    ∀ (ds : List String) (acc : List String), x ∈ ds →
      x ∈ ds.foldl (fun acc d => if d ∈ acc then acc else acc ++ [d]) acc
  | [], _, h => absurd h (List.not_mem_nil x)
  | d :: rest, acc, h => by
    rw [List.foldl_cons]
    rcases List.mem_cons.mp h with rfl | h
    · by_cases hd : x ∈ acc
      · rw [if_pos hd]
        exact dedupFold_mem_acc rest acc hd
      · rw [if_neg hd]
        exact dedupFold_mem_acc rest (acc ++ [x])
          (List.mem_append_right _ (List.mem_singleton_self x))
    · by_cases hd : d ∈ acc
      · rw [if_pos hd]
        exact dedupFold_mem_list rest acc h
      · rw [if_neg hd]
        exact dedupFold_mem_list rest (acc ++ [d]) h

theorem dedupFold_nodup :
    ∀ (ds : List String) (acc : List String), acc.Nodup →
      (ds.foldl (fun acc d => if d ∈ acc then acc else acc ++ [d]) acc).Nodup
  | [], _, h => h
  | d :: rest, acc, h => by
    rw [List.foldl_cons]
    by_cases hd : d ∈ acc
    · rw [if_pos hd]
      exact dedupFold_nodup rest acc h
    · rw [if_neg hd]
      refine dedupFold_nodup rest (acc ++ [d]) ?_
      rw [List.nodup_append]
      refine ⟨h, List.nodup_singleton d, ?_⟩
      intro a ha hb
      rw [List.mem_singleton] at hb
      subst hb
      exact hd ha

/-- Claim C10: when the directory specification is a plain iterable,
line 135 builds `dict((dirname, dirname) for dirname in dirs)`: a repeated
directory path collapses into the single existing `(directory, label)`
entry, the resulting mapping has pairwise-distinct directory keys, and
resolution of the listing with the repetition equals resolution without
it — the repeated directory contributes each of its images exactly once
and can never trigger the duplicate-image error by itself. -/
theorem duplicate_dirs_collapsed (exts : List String)
    (listing : String → List String) (ds1 ds2 : List String) (d : String)
    (hd : d ∈ ds1) :
    normalizeDirs (ds1 ++ d :: ds2) = normalizeDirs (ds1 ++ ds2) ∧
      ((normalizeDirs (ds1 ++ d :: ds2)).map Prod.fst).Nodup ∧
      resolveImages exts listing (normalizeDirs (ds1 ++ d :: ds2)) =
        resolveImages exts listing (normalizeDirs (ds1 ++ ds2)) := by
  have key : (ds1 ++ d :: ds2).foldl
        (fun acc d => if d ∈ acc then acc else acc ++ [d]) [] =
      (ds1 ++ ds2).foldl (fun acc d => if d ∈ acc then acc else acc ++ [d]) [] := by
    rw [List.foldl_append, List.foldl_append, List.foldl_cons,
      if_pos (dedupFold_mem_list ds1 [] hd)]
  have heq : normalizeDirs (ds1 ++ d :: ds2) = normalizeDirs (ds1 ++ ds2) := by
    rw [normalizeDirs, normalizeDirs, key]
  refine ⟨heq, ?_, by rw [heq]⟩
  rw [normalizeDirs, List.map_map]
  have hid : ((ds1 ++ d :: ds2).foldl
      (fun acc d => if d ∈ acc then acc else acc ++ [d]) []).map
        (Prod.fst ∘ fun d => (d, d)) =
      (ds1 ++ d :: ds2).foldl (fun acc d => if d ∈ acc then acc else acc ++ [d]) [] :=
    List.map_id _
  rw [hid]
  exact dedupFold_nodup (ds1 ++ d :: ds2) [] List.nodup_nil

/-- Claim C10 witness: the iterable `["a", "a"]` collapses to the single
entry `("a", "a")` and resolves exactly like `["a"]`. -/
theorem duplicate_dirs_collapsed_witness :
    normalizeDirs (["a"] ++ "a" :: []) = normalizeDirs (["a"] ++ []) ∧
      ((normalizeDirs (["a"] ++ "a" :: [])).map Prod.fst).Nodup ∧
      resolveImages ["jpg"] (fun _ => ["x.jpg"]) (normalizeDirs (["a"] ++ "a" :: [])) =
        resolveImages ["jpg"] (fun _ => ["x.jpg"]) (normalizeDirs (["a"] ++ [])) :=
  duplicate_dirs_collapsed ["jpg"] (fun _ => ["x.jpg"]) ["a"] [] "a" (by decide)

/-- Claim C7 amended, witness: with a cap of 3 the unknown name `bogus`
fails, exactly as the equivalence states at this input. -/
theorem unknown_sampler_error_iff_cap_set_witness :
    okB (selectSampler (some 3) "bogus") = false ↔
      ((some 3 : Option ℕ) ≠ none ∧ ("bogus" : String) ≠ "first" ∧
        ("bogus" : String) ≠ "random" ∧ ("bogus" : String) ≠ "uniform") :=
  unknown_sampler_error_iff_cap_set (some 3) "bogus"

/-- Claim C8 witness: writing the same `(a, x)` leaf twice fails, and the
successful one-record write stores the record unchanged. -/
theorem save_duplicate_leaf_fatal_witness :
    okB (saveFeatures [⟨"a", "x", [1], [2]⟩, ⟨"a", "x", [3], [4]⟩]) = false ∧
      fileRecords [("a", [("x", ([1], [2]))])] ~ [⟨"a", "x", [1], [2]⟩] := by
  constructor
  · have h := (save_duplicate_leaf_fatal
      [⟨"a", "x", [1], [2]⟩, ⟨"a", "x", [3], [4]⟩]).1
    cases hok : okB (saveFeatures [⟨"a", "x", [1], [2]⟩, ⟨"a", "x", [3], [4]⟩]) with
    | false => rfl
    | true => exact absurd (h.mp hok) (by decide)
  · exact (save_duplicate_leaf_fatal [⟨"a", "x", [1], [2]⟩]).2
      [("a", [("x", ([1], [2]))])] rfl

/-- Claim C9 amended, witness: the trace of an internal pool sized to the
core count contains no release operation. -/
theorem dispatch_no_pool_release_witness :
    PoolEvent.close ∉ dispatchPoolEvents .allCores ∧
      PoolEvent.join ∉ dispatchPoolEvents .allCores ∧
      PoolEvent.terminate ∉ dispatchPoolEvents .allCores :=
  dispatch_no_pool_release .allCores
